import Mathlib

/-!
Verification of `firedrake/dmplex.py`: utility functions deriving global and
local numbering from a DMPlex mesh topology.

The DMPlex topology object (an external collaborator) is modelled shallowly by
the structure `Plex`: a chart of points `[pStart, pEnd)`, per-depth and
per-height stratum ranges, transitive closures, stars, supports, the point-SF
leaf list, and the `depth` label.  Mesh points are natural numbers.  Label maps
(`op2_core`, `op2_non_core`, `op2_exec_halo` and `depth`) are functions
`Nat → Int` where `-1` means "unset" (PETSc's `getLabelValue` returns `-1` for
a point not present in a label).  The global vertex numbering collaborator is a
function `Nat → Int` (the signed universal offset of a vertex).
-/

/-- Shallow model of the DMPlex topology collaborator. -/
structure Plex where
  pStart : Nat
  pEnd : Nat
  dim : Nat
  depthLabel : Nat → Nat
  depthStratum : Nat → Nat × Nat
  heightStratum : Nat → Nat × Nat
  closure : Nat → List Nat
  star : Nat → List Nat
  support : Nat → List Nat
  sfLeaves : List Nat

/-- Membership of a point in a stratum range `(start, end)`. -/
def inStratum (r : Nat × Nat) (p : Nat) : Bool := decide (r.1 ≤ p ∧ p < r.2)

/-- Chart membership `pStart <= p < pEnd`. -/
def InChart (plex : Plex) (p : Nat) : Prop := plex.pStart ≤ p ∧ p < plex.pEnd

instance (plex : Plex) (p : Nat) : Decidable (InChart plex p) :=
  inferInstanceAs (Decidable (_ ∧ _))

/-- The chart as an ordered list of points. -/
def chartList (plex : Plex) : List Nat :=
  List.range' plex.pStart (plex.pEnd - plex.pStart)

/-- Correction of a signed universal vertex number: plex defines non-owned
universal numbers as negative, corrected by `N = -(N+1)`
(`v if v >= 0 else -(v+1)` in the source). -/
def correctOffset (v : Int) : Int := if 0 ≤ v then v else -(v + 1)

/-- Vertices of a closure sorted ascending by corrected universal number
(`zip(*sorted(zip(vertices, v_glbl), key=itemgetter(1)))` in the source;
Python's sort is stable, as is `List.insertionSort`). -/
def sortedVertices (plex : Plex) (vertex_numbering : Nat → Int)
    (closure : List Nat) : List Nat :=
  let vertices := closure.filter (inStratum (plex.depthStratum 0))
  let pairs := vertices.map (fun v => (v, correctOffset (vertex_numbering v)))
  (pairs.insertionSort (fun a b => a.2 ≤ b.2)).map (fun q => q.1)

/-- Step 1 of `closure_numbering`: the vertex block, reversed when the
topological dimension is 1 (`if dim == 1: vertices = vertices[::-1]`). -/
def vertexOrder (plex : Plex) (vertex_numbering : Nat → Int)
    (closure : List Nat) : List Nat :=
  let verts := sortedVertices plex vertex_numbering closure
  if plex.dim = 1 then verts.reverse else verts

/-- Local numbers of the vertices of the cell not incident to the sub-entity
`p` (`v_non_inc` and the inner `np.where(vertices == v)[0][0]` lookup). -/
def nonIncidentKey (plex : Plex) (verts : List Nat) (p : Nat) : List Nat :=
  let v_incident := (plex.closure p).filter (inStratum (plex.depthStratum 0))
  let v_non_inc := verts.filter (fun v => decide (¬ v ∈ v_incident))
  v_non_inc.map (fun v => verts.findIdx (fun w => decide (w = v)))

/-- Lexicographic comparison of lists of naturals, as Python compares lists of
ints (`sorted(..., key=itemgetter(1))` on list-valued keys). -/
def lexLe : List Nat → List Nat → Bool
  | [], _ => true
  | _ :: _, [] => false
  | a :: as, b :: bs => if a < b then true else if b < a then false else lexLe as bs

/-- The depth-`d` block of `closure_numbering`: the closure points at depth
`d`, reordered lexicographically by non-incident vertex numbers when
`dofs_per_entity[d] > 0`, kept in closure order otherwise. -/
def depthSegment (plex : Plex) (closure : List Nat) (dofs_per_entity : List Nat)
    (verts : List Nat) (d : Nat) : List Nat :=
  let points := closure.filter (inStratum (plex.depthStratum d))
  if 0 < dofs_per_entity.getD d 0 then
    let keyed := points.map (fun p => (p, nonIncidentKey plex verts p))
    (keyed.insertionSort (fun a b => lexLe a.2 b.2 = true)).map (fun q => q.1)
  else points

/-- The final cell block of `closure_numbering` (height-0 points of the
closure, in closure order). -/
def cellSegment (plex : Plex) (closure : List Nat) : List Nat :=
  closure.filter (inStratum (plex.heightStratum 0))

/-- The blocks of the local numbering produced by `closure_numbering`:
vertices, then one block per intermediate depth `1 .. dim-1`, then cells. -/
def closureSegments (plex : Plex) (vertex_numbering : Nat → Int)
    (closure : List Nat) (dofs_per_entity : List Nat) : List (List Nat) :=
  let verts := vertexOrder plex vertex_numbering closure
  (verts :: (List.range' 1 (plex.dim - 1)).map
      (depthSegment plex closure dofs_per_entity verts)) ++
    [cellSegment plex closure]

/-- Model of `closure_numbering`: apply Fenics local numbering to a cell
closure.  The flat output array of the source is the concatenation of the
per-stratum blocks written at successive offsets. -/
def closure_numbering (plex : Plex) (vertex_numbering : Nat → Int)
    (closure : List Nat) (dofs_per_entity : List Nat) : List Nat :=
  (closureSegments plex vertex_numbering closure dofs_per_entity).flatten

/-- Model of `facet_numbering`: derive the local facet number in each cell of
the facet's support.  The source indexes `[0]` into the non-incident vertex
list, which raises if empty; this is modelled by `Option`. -/
def facet_numbering (plex : Plex) (vertex_numbering : Nat → Int)
    (facet : Nat) : List (Option Nat) :=
  (plex.support facet).map (fun c =>
    let verts := sortedVertices plex vertex_numbering (plex.closure c)
    let v_incident :=
      (plex.closure facet).filter (inStratum (plex.depthStratum 0))
    match (verts.filter (fun v => decide (¬ v ∈ v_incident))).head? with
    | some v_non_incident =>
        some (verts.findIdx (fun w => decide (w = v_non_incident)))
    | none => none)

/-! ### Entity classification (`mark_entity_classes`)

The three class labels are functions `Nat → Int` with `-1` for "unset".  The
imperative passes of the source only ever set a point's value to its depth and
never reset it, and each pass reads only labels that are final when it runs, so
the final label maps admit the direct functional definitions below. -/

/-- The three PyOP2 entity class labels created by `mark_entity_classes`. -/
structure EntityLabels where
  core : Nat → Int
  nonCore : Nat → Int
  execHalo : Nat → Int

/-- Points of the chart carrying value `v` in label `lab`, in ascending order
(model of `getStratumIS(label, v).getIndices()`). -/
def stratumIS (plex : Plex) (lab : Nat → Int) (v : Int) : List Nat :=
  (chartList plex).filter (fun p => decide (lab p = v))

/-- Model of `getStratumSize(label, v)`. -/
def stratumSize (plex : Plex) (lab : Nat → Int) (v : Int) : Nat :=
  (stratumIS plex lab v).length

/-- Final `op2_exec_halo` label: every local leaf point of the point SF is
marked at its depth (first pass of `mark_entity_classes`). -/
def execHaloLabel (plex : Plex) : Nat → Int := fun p =>
  if p ∈ plex.sfLeaves then (plex.depthLabel p : Int) else -1

/-- The `adjacent_cells` list of `mark_entity_classes`: for each halo cell,
for each vertex of its closure, the cells of that vertex's star not already
marked `exec_halo`. -/
def adjacentCells (plex : Plex) : List Nat :=
  let eh := execHaloLabel plex
  (stratumIS plex eh (plex.dim : Int)).flatMap (fun c =>
    ((plex.closure c).filter (inStratum (plex.depthStratum 0))).flatMap
      (fun vtx =>
        ((plex.star vtx).filter (inStratum (plex.heightStratum 0))).filter
          (fun adj => decide (eh adj < 0))))

/-- Final `op2_non_core` label: closure points of adjacent cells not marked
`exec_halo`, at their depth (second pass of `mark_entity_classes`). -/
def nonCoreLabel (plex : Plex) : Nat → Int := fun p =>
  if (∃ adj ∈ adjacentCells plex, p ∈ plex.closure adj) ∧
      execHaloLabel plex p < 0 then
    (plex.depthLabel p : Int)
  else -1

/-- Model of `mark_entity_classes`: returns the three class label maps. -/
def mark_entity_classes (plex : Plex) (commSize : Nat) : EntityLabels :=
  if 1 < commSize then
    { execHalo := execHaloLabel plex
      nonCore := nonCoreLabel plex
      core := fun p =>
        if InChart plex p ∧ execHaloLabel plex p < 0 ∧ nonCoreLabel plex p < 0
        then (plex.depthLabel p : Int) else -1 }
  else
    { execHalo := fun _ => -1
      nonCore := fun _ => -1
      core := fun p =>
        if InChart plex p then (plex.depthLabel p : Int) else -1 }

/-! ### Class-ordered entity selection (`get_entities_by_class`) -/

/-- Optional `condition` filter applied to a class's entities. -/
def applyCond (condition : Option (Nat → Bool)) (l : List Nat) : List Nat :=
  match condition with
  | some c => l.filter c
  | none => l

/-- Model of `get_entities_by_class`: entities at `depth` grouped in order
`core`, `non_core`, `exec_halo`, with the four class boundary counts. -/
def get_entities_by_class (plex : Plex) (L : EntityLabels) (depth : Nat)
    (condition : Option (Nat → Bool)) : List Nat × (Nat × Nat × Nat × Nat) :=
  let e0 : List Nat := []
  let e1 := if 0 < stratumSize plex L.core (depth : Int) then
      e0 ++ applyCond condition (stratumIS plex L.core (depth : Int)) else e0
  let b0 := e1.length
  let e2 := if 0 < stratumSize plex L.nonCore (depth : Int) then
      e1 ++ applyCond condition (stratumIS plex L.nonCore (depth : Int)) else e1
  let b1 := e2.length
  let e3 := if 0 < stratumSize plex L.execHalo (depth : Int) then
      e2 ++ applyCond condition (stratumIS plex L.execHalo (depth : Int)) else e2
  let b2 := e3.length
  (e3, (b0, b1, b2, e3.length))

/-! ### Global renumbering (`plex_renumbering`) -/

/-- One point step of a renumbering pass: skip if seen, else emit when the
point carries the current class's label.  State is `(seen, perm)`. -/
def procPoint (lab : Nat → Int) (st : List Nat × List Nat) (p : Nat) :
    List Nat × List Nat :=
  if p ∈ st.1 then st
  else if 0 ≤ lab p then (p :: st.1, st.2 ++ [p]) else st

/-- Process one cell of a renumbering pass: fold over its transitive closure
in topology-native order. -/
def procCell (plex : Plex) (lab : Nat → Int) (st : List Nat × List Nat)
    (cell : Nat) : List Nat × List Nat :=
  (plex.closure cell).foldl (procPoint lab) st

/-- One class pass of `plex_renumbering`: fold over the class's cells. -/
def renumberPass (plex : Plex) (lab : Nat → Int) (st : List Nat × List Nat)
    (cells : List Nat) : List Nat × List Nat :=
  cells.foldl (procCell plex lab) st

/-- One guarded class pass of `plex_renumbering`: run the pass over the
class's cell stratum when that stratum is non-empty, else leave the state
unchanged. -/
def renumberStage (plex : Plex) (lab : Nat → Int) (st : List Nat × List Nat) :
    List Nat × List Nat :=
  if 0 < stratumSize plex lab (plex.dim : Int) then
    renumberPass plex lab st (stratumIS plex lab (plex.dim : Int))
  else st

/-- Model of `plex_renumbering`: the permutation array, built by traversing
cell closures class by class (`core`, then `non_core`, then `exec_halo`). -/
def plex_renumbering (plex : Plex) (L : EntityLabels) : List Nat :=
  (renumberStage plex L.execHalo
    (renumberStage plex L.nonCore
      (renumberStage plex L.core ([], [])))).2

/-! ### Checked stratum lookups

PETSc disallows querying the index set of a zero-size stratum; the checked
variants model that query as fallible and thread the failure through the two
callers, mirroring their guard structure exactly. -/

/-- Fallible model of `getStratumIS`: `none` when the stratum is empty. -/
def stratumISChecked (plex : Plex) (lab : Nat → Int) (v : Int) :
    Option (List Nat) :=
  if 0 < stratumSize plex lab v then some (stratumIS plex lab v) else none

/-- `get_entities_by_class` with fallible stratum lookups. -/
def get_entities_by_class_checked (plex : Plex) (L : EntityLabels) (depth : Nat)
    (condition : Option (Nat → Bool)) :
    Option (List Nat × (Nat × Nat × Nat × Nat)) := do
  let e0 : List Nat := []
  let e1 ← if 0 < stratumSize plex L.core (depth : Int) then do
      let core ← stratumISChecked plex L.core (depth : Int)
      pure (e0 ++ applyCond condition core)
    else pure e0
  let b0 := e1.length
  let e2 ← if 0 < stratumSize plex L.nonCore (depth : Int) then do
      let nc ← stratumISChecked plex L.nonCore (depth : Int)
      pure (e1 ++ applyCond condition nc)
    else pure e1
  let b1 := e2.length
  let e3 ← if 0 < stratumSize plex L.execHalo (depth : Int) then do
      let eh ← stratumISChecked plex L.execHalo (depth : Int)
      pure (e2 ++ applyCond condition eh)
    else pure e2
  let b2 := e3.length
  pure (e3, (b0, b1, b2, e3.length))

/-- `plex_renumbering` with fallible stratum lookups. -/
def plex_renumbering_checked (plex : Plex) (L : EntityLabels) :
    Option (List Nat) := do
  let d : Int := (plex.dim : Int)
  let st0 : List Nat × List Nat := ([], [])
  let st1 ← if 0 < stratumSize plex L.core d then do
      let cells ← stratumISChecked plex L.core d
      pure (renumberPass plex L.core st0 cells)
    else pure st0
  let st2 ← if 0 < stratumSize plex L.nonCore d then do
      let cells ← stratumISChecked plex L.nonCore d
      pure (renumberPass plex L.nonCore st1 cells)
    else pure st1
  let st3 ← if 0 < stratumSize plex L.execHalo d then do
      let cells ← stratumISChecked plex L.execHalo d
      pure (renumberPass plex L.execHalo st2 cells)
    else pure st2
  pure st3.2

/-! ### Concrete topologies

`triPlex` is a single triangle in DMPlex numbering (cell `0`, vertices
`1,2,3`, edges `4,5,6`); `twoTriPlex` is two triangles sharing an edge (cells
`0,1`, vertices `2..5`, edges `6..10`, shared edge `8` between vertices `2`
and `4`). -/

/-- A single-triangle topology. -/
def triPlex : Plex where
  pStart := 0
  pEnd := 7
  dim := 2
  depthLabel := fun p => if p = 0 then 2 else if p < 4 then 0 else 1
  depthStratum := fun d =>
    if d = 0 then (1, 4) else if d = 1 then (4, 7)
    else if d = 2 then (0, 1) else (0, 0)
  heightStratum := fun h =>
    if h = 0 then (0, 1) else if h = 1 then (4, 7)
    else if h = 2 then (1, 4) else (0, 0)
  closure := fun p =>
    if p = 0 then [0, 4, 5, 6, 1, 2, 3]
    else if p = 4 then [4, 1, 2]
    else if p = 5 then [5, 2, 3]
    else if p = 6 then [6, 1, 3]
    else if p < 7 then [p]
    else []
  star := fun p =>
    if p = 1 then [1, 4, 6, 0]
    else if p = 2 then [2, 4, 5, 0]
    else if p = 3 then [3, 5, 6, 0]
    else if p < 7 then [p, 0]
    else []
  support := fun p =>
    if 4 ≤ p ∧ p < 7 then [0] else if 1 ≤ p ∧ p < 4 then [4] else []
  sfLeaves := []

/-- Universal vertex numbering giving `triPlex`'s vertices `1, 2, 3` the
corrected global indices `5, 1, 3`. -/
def triNumbering : Nat → Int := fun v =>
  if v = 1 then 5 else if v = 2 then 1 else if v = 3 then 3 else 0

/-- Two triangles sharing edge `8` (vertices `2` and `4`). -/
def twoTriPlex : Plex where
  pStart := 0
  pEnd := 11
  dim := 2
  depthLabel := fun p => if p < 2 then 2 else if p < 6 then 0 else 1
  depthStratum := fun d =>
    if d = 0 then (2, 6) else if d = 1 then (6, 11)
    else if d = 2 then (0, 2) else (0, 0)
  heightStratum := fun h =>
    if h = 0 then (0, 2) else if h = 1 then (6, 11)
    else if h = 2 then (2, 6) else (0, 0)
  closure := fun p =>
    if p = 0 then [0, 6, 7, 8, 2, 3, 4]
    else if p = 1 then [1, 8, 9, 10, 2, 4, 5]
    else if p = 6 then [6, 2, 3]
    else if p = 7 then [7, 3, 4]
    else if p = 8 then [8, 2, 4]
    else if p = 9 then [9, 4, 5]
    else if p = 10 then [10, 2, 5]
    else if p < 11 then [p]
    else []
  star := fun p => if p < 11 then [p] else []
  support := fun p =>
    if p = 8 then [0, 1]
    else if p = 6 ∨ p = 7 then [0]
    else if p = 9 ∨ p = 10 then [1]
    else []
  sfLeaves := []

/-- Universal numbering giving `twoTriPlex`'s vertices `2, 3, 4, 5` the
global indices `0, 1, 2, 3` (cell `0` has vertices `{0,1,2}`, cell `1` has
`{0,2,3}`, shared edge `8` has `{0,2}`). -/
def twoTriNumbering : Nat → Int := fun v =>
  if v = 2 then 0 else if v = 3 then 1
  else if v = 4 then 2 else if v = 5 then 3 else 0

/-- C5: for two triangles with global vertices `{0,1,2}` and `{0,2,3}` sharing
the facet with global vertices `(0,2)`, `facet_numbering` returns, per support
cell in support order, the local position of the unique non-incident vertex in
the cell's sorted-by-global-index vertex order: `1` for the first triangle and
`2` for the second. -/
theorem facet_numbering_two_triangles :
    twoTriPlex.support 8 = [0, 1] ∧
    facet_numbering twoTriPlex twoTriNumbering 8 = [some 1, some 2] := by
  decide

/-- C7: for a single triangle whose closure-native vertices carry corrected
global indices `5, 1, 3` and with `dofs_per_entity = [1, 0]`,
`closure_numbering` returns the vertices ascending by global index
(`v(1), v(3), v(5)` = points `2, 3, 1`), then the three edges in original
closure order (`4, 5, 6`), then the cell point (`0`). -/
theorem closure_numbering_triangle_zero_dof_edges :
    closure_numbering triPlex triNumbering [0, 4, 5, 6, 1, 2, 3] [1, 0] =
      [2, 3, 1] ++ [4, 5, 6] ++ [0] := by
  decide

/-- Appending behind an `if` never shrinks a list. -/
theorem length_le_ite_append (c : Prop) [Decidable c] (l x : List Nat) :
    l.length ≤ (if c then l ++ x else l).length := by
  split
  · simp
  · exact Nat.le_refl _

/-- C8: the boundaries returned by `get_entities_by_class` satisfy
`0 <= boundaries[0] <= boundaries[1] <= boundaries[2] == boundaries[3]` and
the entities list has length `boundaries[3]`. -/
theorem get_entities_by_class_boundaries (plex : Plex) (L : EntityLabels)
    (depth : Nat) (condition : Option (Nat → Bool)) :
    0 ≤ (get_entities_by_class plex L depth condition).2.1 ∧
    (get_entities_by_class plex L depth condition).2.1 ≤
      (get_entities_by_class plex L depth condition).2.2.1 ∧
    (get_entities_by_class plex L depth condition).2.2.1 ≤
      (get_entities_by_class plex L depth condition).2.2.2.1 ∧
    (get_entities_by_class plex L depth condition).2.2.2.1 =
      (get_entities_by_class plex L depth condition).2.2.2.2 ∧
    (get_entities_by_class plex L depth condition).1.length =
      (get_entities_by_class plex L depth condition).2.2.2.2 := by
  unfold get_entities_by_class
  exact ⟨Nat.zero_le _, length_le_ite_append _ _ _, length_le_ite_append _ _ _,
    rfl, rfl⟩

/-- C9: both callers guard every per-class stratum index-set lookup with a
stratum-size test, so the fallible variants never fail and compute exactly the
unguarded results (an empty class contributes zero entities). -/
theorem stratum_lookups_always_guarded (plex : Plex) (L : EntityLabels)
    (depth : Nat) (condition : Option (Nat → Bool)) :
    get_entities_by_class_checked plex L depth condition =
      some (get_entities_by_class plex L depth condition) ∧
    plex_renumbering_checked plex L = some (plex_renumbering plex L) := by
  constructor
  · unfold get_entities_by_class_checked get_entities_by_class stratumISChecked
    by_cases h1 : 0 < stratumSize plex L.core (depth : Int) <;>
      by_cases h2 : 0 < stratumSize plex L.nonCore (depth : Int) <;>
        by_cases h3 : 0 < stratumSize plex L.execHalo (depth : Int) <;>
          simp [h1, h2, h3, Nat.add_assoc]
  · unfold plex_renumbering_checked plex_renumbering renumberStage
      stratumISChecked
    by_cases h1 : 0 < stratumSize plex L.core (plex.dim : Int) <;>
      by_cases h2 : 0 < stratumSize plex L.nonCore (plex.dim : Int) <;>
        by_cases h3 : 0 < stratumSize plex L.execHalo (plex.dim : Int) <;>
          simp [h1, h2, h3, Nat.add_assoc]

/-- C2: after `mark_entity_classes`, at every depth the points labeled `core`,
`non_core` and `exec_halo` at that depth are pairwise disjoint and together
are exactly the chart points of that depth; with communicator size 1 every
chart point is `core` at its own depth and the other two labels are empty. -/
theorem mark_entity_classes_partition (plex : Plex) (commSize : Nat) (d : Nat)
    (hleaves : ∀ p ∈ plex.sfLeaves, InChart plex p)
    (hadj : ∀ adj ∈ adjacentCells plex, ∀ q ∈ plex.closure adj, InChart plex q) :
    (∀ p, ¬((mark_entity_classes plex commSize).core p = (d : Int) ∧
            (mark_entity_classes plex commSize).nonCore p = (d : Int))) ∧
    (∀ p, ¬((mark_entity_classes plex commSize).core p = (d : Int) ∧
            (mark_entity_classes plex commSize).execHalo p = (d : Int))) ∧
    (∀ p, ¬((mark_entity_classes plex commSize).nonCore p = (d : Int) ∧
            (mark_entity_classes plex commSize).execHalo p = (d : Int))) ∧
    (∀ p, ((mark_entity_classes plex commSize).core p = (d : Int) ∨
           (mark_entity_classes plex commSize).nonCore p = (d : Int) ∨
           (mark_entity_classes plex commSize).execHalo p = (d : Int)) ↔
          (InChart plex p ∧ plex.depthLabel p = d)) ∧
    (commSize = 1 →
      (∀ p, (mark_entity_classes plex commSize).nonCore p = -1 ∧
            (mark_entity_classes plex commSize).execHalo p = -1) ∧
      (∀ p, InChart plex p →
            (mark_entity_classes plex commSize).core p = (plex.depthLabel p : Int))) := by
  unfold mark_entity_classes
  by_cases hc : 1 < commSize
  · simp only [if_pos hc]
    refine ⟨?_, ?_, ?_, ?_, ?_⟩
    · intro p ⟨h1, h2⟩
      split at h1
      · rename_i hcond
        have hnc := hcond.2.2
        omega
      · omega
    · intro p ⟨h1, h2⟩
      split at h1
      · rename_i hcond
        rcases hcond with ⟨-, heh, -⟩
        omega
      · omega
    · intro p ⟨h1, h2⟩
      rw [nonCoreLabel] at h1
      split at h1
      · rename_i hcond
        rcases hcond with ⟨-, heh⟩
        omega
      · omega
    · intro p
      constructor
      · rintro (h | h | h)
        · split at h
          · rename_i hcond
            exact ⟨hcond.1, by omega⟩
          · omega
        · rw [nonCoreLabel] at h
          split at h
          · rename_i hcond
            rcases hcond.1 with ⟨adj, hadjmem, hpmem⟩
            exact ⟨hadj adj hadjmem p hpmem, by omega⟩
          · omega
        · rw [execHaloLabel] at h
          split at h
          · rename_i hmem
            exact ⟨hleaves p hmem, by omega⟩
          · omega
      · rintro ⟨hch, hdep⟩
        by_cases hmem : p ∈ plex.sfLeaves
        · refine Or.inr (Or.inr ?_)
          rw [execHaloLabel, if_pos hmem, hdep]
        · have heh : execHaloLabel plex p = -1 := by
            rw [execHaloLabel, if_neg hmem]
          by_cases hnc : ∃ adj ∈ adjacentCells plex, p ∈ plex.closure adj
          · refine Or.inr (Or.inl ?_)
            rw [nonCoreLabel, if_pos ⟨hnc, by omega⟩, hdep]
          · refine Or.inl ?_
            have hncv : nonCoreLabel plex p = -1 := by
              rw [nonCoreLabel, if_neg]
              intro h
              exact hnc h.1
            rw [if_pos ⟨hch, by omega, by omega⟩, hdep]
    · intro h1
      omega
  · simp only [if_neg hc]
    refine ⟨?_, ?_, ?_, ?_, ?_⟩
    · intro p h
      exact absurd h.2.symm (by omega)
    · intro p h
      exact absurd h.2.symm (by omega)
    · intro p h
      exact absurd h.1.symm (by omega)
    · intro p
      constructor
      · rintro (h | h | h)
        · split at h
          · rename_i hcond
            exact ⟨hcond, by omega⟩
          · omega
        · omega
        · omega
      · rintro ⟨hch, hdep⟩
        refine Or.inl ?_
        rw [if_pos hch, hdep]
    · intro h1
      exact ⟨fun p => ⟨trivial, trivial⟩, fun p hp => by rw [if_pos hp]⟩

/-- Concrete instantiation of the C2 partition theorem on the single-triangle
topology with communicator size 1 at depth 0. -/
theorem mark_entity_classes_partition_witness :
    (∀ p ∈ triPlex.sfLeaves, InChart triPlex p) ∧
    (∀ adj ∈ adjacentCells triPlex, ∀ q ∈ triPlex.closure adj, InChart triPlex q) ∧
    ((∀ p, ¬((mark_entity_classes triPlex 1).core p = (0 : Int) ∧
             (mark_entity_classes triPlex 1).nonCore p = (0 : Int))) ∧
     (∀ p, ¬((mark_entity_classes triPlex 1).core p = (0 : Int) ∧
             (mark_entity_classes triPlex 1).execHalo p = (0 : Int))) ∧
     (∀ p, ¬((mark_entity_classes triPlex 1).nonCore p = (0 : Int) ∧
             (mark_entity_classes triPlex 1).execHalo p = (0 : Int))) ∧
     (∀ p, ((mark_entity_classes triPlex 1).core p = (0 : Int) ∨
            (mark_entity_classes triPlex 1).nonCore p = (0 : Int) ∨
            (mark_entity_classes triPlex 1).execHalo p = (0 : Int)) ↔
           (InChart triPlex p ∧ triPlex.depthLabel p = 0)) ∧
     (1 = 1 →
       (∀ p, (mark_entity_classes triPlex 1).nonCore p = -1 ∧
             (mark_entity_classes triPlex 1).execHalo p = -1) ∧
       (∀ p, InChart triPlex p →
             (mark_entity_classes triPlex 1).core p = (triPlex.depthLabel p : Int)))) :=
  ⟨by decide, by decide,
   mark_entity_classes_partition triPlex 1 0 (by decide) (by decide)⟩

/-! ### Cross-process agreement of the vertex ordering -/

/-- Projecting the sort keys out of the key-sorted pair list yields the sorted
key list. -/
theorem map_snd_insertionSort_pairs (l : List (Nat × Int)) :
    ((l.insertionSort (fun a b => a.2 ≤ b.2)).map (fun q => q.2)) =
      (l.map (fun q => q.2)).insertionSort (fun a b => a ≤ b) := by
  haveI ht : IsTotal (Nat × Int) (fun a b => a.2 ≤ b.2) :=
    ⟨fun a b => le_total a.2 b.2⟩
  haveI htr : IsTrans (Nat × Int) (fun a b => a.2 ≤ b.2) :=
    ⟨fun a b c h1 h2 => le_trans h1 h2⟩
  refine List.eq_of_perm_of_sorted (r := fun a b : Int => a ≤ b) ?_ ?_ ?_
  · exact ((List.perm_insertionSort _ l).map _).trans
      ((List.perm_insertionSort _ (l.map (fun q => q.2))).symm)
  · exact (List.sorted_insertionSort _ l).map _ (fun a b h => h)
  · exact List.sorted_insertionSort _ _

/-- The corrected global indices read along `sortedVertices` are exactly the
sorted list of the closure's corrected global vertex indices. -/
theorem sortedVertices_map_key (plex : Plex) (num : Nat → Int)
    (cl : List Nat) :
    (sortedVertices plex num cl).map (fun v => correctOffset (num v)) =
      ((cl.filter (inStratum (plex.depthStratum 0))).map
        (fun v => correctOffset (num v))).insertionSort (fun a b => a ≤ b) := by
  unfold sortedVertices
  rw [List.map_map]
  have hmem : ∀ q ∈ ((cl.filter (inStratum (plex.depthStratum 0))).map
      (fun v => (v, correctOffset (num v)))).insertionSort
        (fun a b => a.2 ≤ b.2),
      ((fun v => correctOffset (num v)) ∘ (fun q : Nat × Int => q.1)) q =
        (fun q : Nat × Int => q.2) q := by
    intro q hq
    rw [List.mem_insertionSort] at hq
    obtain ⟨v, hv, rfl⟩ := List.mem_map.mp hq
    rfl
  rw [List.map_congr_left hmem, map_snd_insertionSort_pairs, List.map_map]
  rfl

/-- C1: two closures of the same physical cell, seen under different local
point numbering schemes but with the same multiset of corrected global vertex
indices, receive vertex orderings that agree through the global numbering:
position by position, the corrected global indices coincide. -/
theorem closure_numbering_cross_process_agreement
    (plex₁ plex₂ : Plex) (num₁ num₂ : Nat → Int) (cl₁ cl₂ : List Nat)
    (hdim : plex₁.dim = plex₂.dim)
    (hkeys : ((cl₁.filter (inStratum (plex₁.depthStratum 0))).map
                (fun v => correctOffset (num₁ v))).Perm
             ((cl₂.filter (inStratum (plex₂.depthStratum 0))).map
                (fun v => correctOffset (num₂ v)))) :
    (vertexOrder plex₁ num₁ cl₁).length = (vertexOrder plex₂ num₂ cl₂).length ∧
    ∀ k, k < (vertexOrder plex₁ num₁ cl₁).length →
      correctOffset (num₁ ((vertexOrder plex₁ num₁ cl₁).getD k 0)) =
      correctOffset (num₂ ((vertexOrder plex₂ num₂ cl₂).getD k 0)) := by
  have hsort : ((cl₁.filter (inStratum (plex₁.depthStratum 0))).map
        (fun v => correctOffset (num₁ v))).insertionSort (fun a b => a ≤ b) =
      ((cl₂.filter (inStratum (plex₂.depthStratum 0))).map
        (fun v => correctOffset (num₂ v))).insertionSort (fun a b => a ≤ b) := by
    refine List.eq_of_perm_of_sorted (r := fun a b : Int => a ≤ b) ?_ ?_ ?_
    · exact ((List.perm_insertionSort _ _).trans hkeys).trans
        (List.perm_insertionSort _ _).symm
    · exact List.sorted_insertionSort _ _
    · exact List.sorted_insertionSort _ _
  have hmk : (vertexOrder plex₁ num₁ cl₁).map (fun v => correctOffset (num₁ v)) =
      (vertexOrder plex₂ num₂ cl₂).map (fun v => correctOffset (num₂ v)) := by
    unfold vertexOrder
    rw [hdim]
    split
    · rw [List.map_reverse, List.map_reverse, sortedVertices_map_key,
        sortedVertices_map_key, hsort]
    · rw [sortedVertices_map_key, sortedVertices_map_key, hsort]
  have hlen : (vertexOrder plex₁ num₁ cl₁).length =
      (vertexOrder plex₂ num₂ cl₂).length := by
    have := congrArg List.length hmk
    simpa using this
  refine ⟨hlen, ?_⟩
  intro k hk
  have hk₂ : k < (vertexOrder plex₂ num₂ cl₂).length := hlen ▸ hk
  rw [List.getD_eq_getElem _ _ hk, List.getD_eq_getElem _ _ hk₂]
  have hk₁m : k < ((vertexOrder plex₁ num₁ cl₁).map
      (fun v => correctOffset (num₁ v))).length := by simpa using hk
  have h1 := List.getElem_map (fun v => correctOffset (num₁ v))
    (l := vertexOrder plex₁ num₁ cl₁) (n := k) (h := hk₁m)
  have hk₂m : k < ((vertexOrder plex₂ num₂ cl₂).map
      (fun v => correctOffset (num₂ v))).length := by simpa using hk₂
  have h2 := List.getElem_map (fun v => correctOffset (num₂ v))
    (l := vertexOrder plex₂ num₂ cl₂) (n := k) (h := hk₂m)
  rw [← h1, ← h2]
  simp only [hmk]

/-- A second universal numbering for the single triangle, assigning the same
global index multiset `{5, 1, 3}` to the vertices differently. -/
def triNumberingB : Nat → Int := fun v =>
  if v = 1 then 1 else if v = 2 then 3 else if v = 3 then 5 else 0

/-- Concrete instantiation of the C1 agreement theorem: the same triangle
closure seen under two different numbering schemes. -/
theorem closure_numbering_cross_process_agreement_witness :
    triPlex.dim = triPlex.dim ∧
    ((([0, 4, 5, 6, 1, 2, 3] : List Nat).filter
        (inStratum (triPlex.depthStratum 0))).map
      (fun v => correctOffset (triNumbering v))).Perm
      ((([0, 4, 5, 6, 3, 1, 2] : List Nat).filter
          (inStratum (triPlex.depthStratum 0))).map
        (fun v => correctOffset (triNumberingB v))) ∧
    ((vertexOrder triPlex triNumbering [0, 4, 5, 6, 1, 2, 3]).length =
      (vertexOrder triPlex triNumberingB [0, 4, 5, 6, 3, 1, 2]).length ∧
    ∀ k, k < (vertexOrder triPlex triNumbering [0, 4, 5, 6, 1, 2, 3]).length →
      correctOffset (triNumbering
        ((vertexOrder triPlex triNumbering [0, 4, 5, 6, 1, 2, 3]).getD k 0)) =
      correctOffset (triNumberingB
        ((vertexOrder triPlex triNumberingB [0, 4, 5, 6, 3, 1, 2]).getD k 0))) :=
  ⟨rfl, by decide,
   closure_numbering_cross_process_agreement triPlex triPlex triNumbering
     triNumberingB [0, 4, 5, 6, 1, 2, 3] [0, 4, 5, 6, 3, 1, 2] rfl (by decide)⟩

/-! ### Lexicographic ordering of intermediate-depth blocks -/

/-- `lexLe` is total. -/
theorem lexLe_total (a : List Nat) : ∀ b, lexLe a b = true ∨ lexLe b a = true := by
  induction a with
  | nil => intro b; left; rfl
  | cons x xs ih =>
    intro b
    cases b with
    | nil => right; rfl
    | cons y ys =>
      rcases Nat.lt_trichotomy x y with h | h | h
      · left; simp [lexLe, h]
      · subst h
        rcases ih ys with h2 | h2
        · left; simp [lexLe, h2, Nat.lt_irrefl]
        · right; simp [lexLe, h2, Nat.lt_irrefl]
      · right; simp [lexLe, h]

/-- `lexLe` is transitive. -/
theorem lexLe_trans (a : List Nat) :
    ∀ b c, lexLe a b = true → lexLe b c = true → lexLe a c = true := by
  induction a with
  | nil => intro b c h1 h2; rfl
  | cons x xs ih =>
    intro b c h1 h2
    cases b with
    | nil => simp [lexLe] at h1
    | cons y ys =>
      cases c with
      | nil => simp [lexLe] at h2
      | cons z zs =>
        simp only [lexLe] at h1 h2 ⊢
        split at h1
        · rename_i hxy
          split at h2
          · rename_i hyz
            rw [if_pos (by omega)]
          · split at h2
            · simp at h2
            · rename_i hyz hzy
              rw [if_pos (by omega)]
        · split at h1
          · simp at h1
          · rename_i hxy hyx
            split at h2
            · rename_i hyz
              rw [if_pos (by omega)]
            · split at h2
              · simp at h2
              · rename_i hyz hzy
                rw [if_neg (by omega), if_neg (by omega)]
                exact ih ys zs h1 h2

/-- The block of `closure_numbering` at an intermediate depth `d` is the
`depthSegment` at `d`. -/
theorem closureSegments_getD (plex : Plex) (num : Nat → Int) (cl : List Nat)
    (dofs : List Nat) (d : Nat) (hd1 : 1 ≤ d) (hd2 : d < plex.dim) :
    (closureSegments plex num cl dofs).getD d [] =
      depthSegment plex cl dofs (vertexOrder plex num cl) d := by
  obtain ⟨e, rfl⟩ : ∃ e, d = e + 1 := ⟨d - 1, by omega⟩
  unfold closureSegments
  have he : e < (List.range' 1 (plex.dim - 1)).length := by
    rw [List.length_range']
    omega
  rw [List.getD_append _ _ _ _ (by simp; omega), List.getD_cons_succ,
    List.getD_eq_getElem _ _ (by simpa using he), List.getElem_map,
    List.getElem_range']
  congr 1
  omega

/-- C6: for every intermediate depth `d` (`1 <= d <= dim-1`) with
`dofs_per_entity[d] > 0`, the depth-`d` block emitted by `closure_numbering`
is a rearrangement of the closure points at depth `d`, ordered
lexicographically by the local indices of their non-incident vertices. -/
theorem closure_numbering_lex_sorted_segment (plex : Plex) (num : Nat → Int)
    (cl : List Nat) (dofs : List Nat) (d : Nat)
    (hd1 : 1 ≤ d) (hd2 : d < plex.dim) (hdofs : 0 < dofs.getD d 0) :
    ((closureSegments plex num cl dofs).getD d []).Perm
      (cl.filter (inStratum (plex.depthStratum d))) ∧
    ((closureSegments plex num cl dofs).getD d []).Pairwise
      (fun p q => lexLe (nonIncidentKey plex (vertexOrder plex num cl) p)
                        (nonIncidentKey plex (vertexOrder plex num cl) q) = true) := by
  rw [closureSegments_getD plex num cl dofs d hd1 hd2]
  unfold depthSegment
  rw [if_pos hdofs]
  haveI ht : IsTotal (Nat × List Nat) (fun a b => lexLe a.2 b.2 = true) :=
    ⟨fun a b => lexLe_total a.2 b.2⟩
  haveI htr : IsTrans (Nat × List Nat) (fun a b => lexLe a.2 b.2 = true) :=
    ⟨fun a b c => lexLe_trans a.2 b.2 c.2⟩
  constructor
  · have hperm := (List.perm_insertionSort
      (fun a b : Nat × List Nat => lexLe a.2 b.2 = true)
      ((cl.filter (inStratum (plex.depthStratum d))).map
        (fun p => (p, nonIncidentKey plex (vertexOrder plex num cl) p)))).map
      (fun q : Nat × List Nat => q.1)
    have hid : List.map ((fun q : Nat × List Nat => q.1) ∘
        (fun p => (p, nonIncidentKey plex (vertexOrder plex num cl) p)))
        (cl.filter (inStratum (plex.depthStratum d))) =
        cl.filter (inStratum (plex.depthStratum d)) := by
      rw [show ((fun q : Nat × List Nat => q.1) ∘
          (fun p => (p, nonIncidentKey plex (vertexOrder plex num cl) p))) =
          fun p => p from rfl]
      exact List.map_id' _
    rw [List.map_map, hid] at hperm
    exact hperm
  · have hs := List.sorted_insertionSort
      (fun a b : Nat × List Nat => lexLe a.2 b.2 = true)
      ((cl.filter (inStratum (plex.depthStratum d))).map
        (fun p => (p, nonIncidentKey plex (vertexOrder plex num cl) p)))
    rw [List.pairwise_map]
    refine hs.imp_of_mem ?_
    intro a b ha hb hab
    rw [List.mem_insertionSort] at ha hb
    obtain ⟨p, hp, rfl⟩ := List.mem_map.mp ha
    obtain ⟨q, hq, rfl⟩ := List.mem_map.mp hb
    exact hab

/-- Concrete instantiation of the C6 lexicographic-segment theorem on the
single triangle with edge dofs present. -/
theorem closure_numbering_lex_sorted_segment_witness :
    (1 ≤ 1 ∧ 1 < triPlex.dim ∧ 0 < ([1, 1] : List Nat).getD 1 0) ∧
    (((closureSegments triPlex triNumbering [0, 4, 5, 6, 1, 2, 3] [1, 1]).getD 1 []).Perm
      (([0, 4, 5, 6, 1, 2, 3] : List Nat).filter
        (inStratum (triPlex.depthStratum 1))) ∧
    ((closureSegments triPlex triNumbering [0, 4, 5, 6, 1, 2, 3] [1, 1]).getD 1 []).Pairwise
      (fun p q =>
        lexLe (nonIncidentKey triPlex
                (vertexOrder triPlex triNumbering [0, 4, 5, 6, 1, 2, 3]) p)
              (nonIncidentKey triPlex
                (vertexOrder triPlex triNumbering [0, 4, 5, 6, 1, 2, 3]) q) = true)) :=
  ⟨⟨by decide, by decide, by decide⟩,
   closure_numbering_lex_sorted_segment triPlex triNumbering
     [0, 4, 5, 6, 1, 2, 3] [1, 1] 1 (by decide) (by decide) (by decide)⟩

/-! ### `closure_numbering` permutes its input closure -/

/-- Projecting the points out of any sort of a keyed point list recovers a
rearrangement of the points. -/
theorem map_fst_keyed_sort_perm {β : Type} (r : (Nat × β) → (Nat × β) → Prop)
    [DecidableRel r] (key : Nat → β) (l : List Nat) :
    (((l.map (fun p => (p, key p))).insertionSort r).map
      (fun q => q.1)).Perm l := by
  have hperm := (List.perm_insertionSort r
    (l.map (fun p => (p, key p)))).map (fun q : Nat × β => q.1)
  rw [List.map_map,
    show ((fun q : Nat × β => q.1) ∘ (fun p => (p, key p))) = fun p => p
      from rfl, List.map_id'] at hperm
  exact hperm

/-- The vertex block is a rearrangement of the closure's vertices. -/
theorem vertexOrder_perm (plex : Plex) (num : Nat → Int) (cl : List Nat) :
    (vertexOrder plex num cl).Perm
      (cl.filter (inStratum (plex.depthStratum 0))) := by
  unfold vertexOrder sortedVertices
  split
  · exact (List.reverse_perm _).trans
      (map_fst_keyed_sort_perm _ (fun v => correctOffset (num v)) _)
  · exact map_fst_keyed_sort_perm _ (fun v => correctOffset (num v)) _

/-- Each depth block is a rearrangement of the closure's points at that
depth. -/
theorem depthSegment_perm (plex : Plex) (cl : List Nat) (dofs : List Nat)
    (verts : List Nat) (d : Nat) :
    (depthSegment plex cl dofs verts d).Perm
      (cl.filter (inStratum (plex.depthStratum d))) := by
  unfold depthSegment
  split
  · exact map_fst_keyed_sort_perm _ (nonIncidentKey plex verts) _
  · exact List.Perm.refl _

/-- The bucket predicates underlying `closureSegments`: vertices, the
intermediate depths `1 .. dim-1`, cells. -/
def closurePreds (plex : Plex) : List (Nat → Bool) :=
  (inStratum (plex.depthStratum 0) ::
    (List.range' 1 (plex.dim - 1)).map (fun d => inStratum (plex.depthStratum d))) ++
    [inStratum (plex.heightStratum 0)]

/-- Mapping `f` and `g` over the same index list with pointwise-permuting
outputs yields `Forall₂`-related lists. -/
theorem forall₂_perm_map (l : List Nat) (f g : Nat → List Nat)
    (h : ∀ d ∈ l, (f d).Perm (g d)) :
    List.Forall₂ List.Perm (l.map f) (l.map g) := by
  induction l with
  | nil => exact List.Forall₂.nil
  | cons a l ih =>
    exact List.Forall₂.cons (h a (List.mem_cons_self a l))
      (ih (fun d hd => h d (List.mem_cons_of_mem a hd)))

/-- When no predicate holds at `x`, prepending `x` changes no filter. -/
theorem map_filter_cons_of_countP_zero (preds : List (Nat → Bool)) (x : Nat)
    (l : List Nat) (h : preds.countP (fun pr => pr x) = 0) :
    preds.map (fun pr => (x :: l).filter pr) =
      preds.map (fun pr => l.filter pr) := by
  induction preds with
  | nil => rfl
  | cons q qs ih =>
    by_cases hq : q x = true
    · rw [List.countP_cons_of_pos (fun pr => pr x) qs hq] at h
      exact absurd h (Nat.succ_ne_zero _)
    · rw [List.countP_cons_of_neg (fun pr => pr x) qs hq] at h
      rw [List.map_cons, List.map_cons, List.filter_cons_of_neg hq, ih h]

/-- Prepending an element satisfying exactly one bucket predicate prepends it
to the flattened buckets, up to rearrangement. -/
theorem flatten_filter_cons_perm (preds : List (Nat → Bool)) (x : Nat)
    (l : List Nat) (h : preds.countP (fun pr => pr x) = 1) :
    ((preds.map (fun pr => (x :: l).filter pr)).flatten).Perm
      (x :: (preds.map (fun pr => l.filter pr)).flatten) := by
  induction preds with
  | nil => simp at h
  | cons q qs ih =>
    by_cases hq : q x = true
    · rw [List.countP_cons_of_pos (fun pr => pr x) qs hq] at h
      have hz : qs.countP (fun pr => pr x) = 0 := Nat.succ.inj h
      rw [List.map_cons, List.flatten_cons, List.filter_cons_of_pos hq,
        map_filter_cons_of_countP_zero qs x l hz]
      exact List.Perm.refl _
    · rw [List.countP_cons_of_neg (fun pr => pr x) qs hq] at h
      have h1 : qs.countP (fun pr => pr x) = 1 := h
      rw [List.map_cons, List.flatten_cons, List.filter_cons_of_neg hq,
        List.map_cons, List.flatten_cons]
      refine ((List.Perm.append_left (l.filter q) (ih h1))).trans ?_
      exact List.perm_middle

/-- Bucket filters of the empty list flatten to the empty list. -/
theorem flatten_map_filter_nil (preds : List (Nat → Bool)) :
    (preds.map (fun pr => List.filter pr ([] : List Nat))).flatten = [] := by
  induction preds with
  | nil => rfl
  | cons q qs ih => simp [ih]

/-- Filtering a list through bucket predicates of which each element satisfies
exactly one, then flattening, rearranges the list. -/
theorem flatten_filter_partition_perm (preds : List (Nat → Bool)) (l : List Nat)
    (h : ∀ x ∈ l, preds.countP (fun pr => pr x) = 1) :
    ((preds.map (fun pr => l.filter pr)).flatten).Perm l := by
  induction l with
  | nil =>
    rw [flatten_map_filter_nil preds]
  | cons x l ih =>
    refine (flatten_filter_cons_perm preds x l
      (h x (List.mem_cons_self x l))).trans ?_
    exact List.Perm.cons x (ih (fun y hy => h y (List.mem_cons_of_mem x hy)))

/-- `Forall₂`-relatedness is preserved by appending related lists. -/
theorem forall₂_perm_append {l₁ l₂ l₃ l₄ : List (List Nat)}
    (h1 : List.Forall₂ List.Perm l₁ l₂) (h2 : List.Forall₂ List.Perm l₃ l₄) :
    List.Forall₂ List.Perm (l₁ ++ l₃) (l₂ ++ l₄) := by
  induction h1 with
  | nil => exact h2
  | cons hhead htail ih => exact List.Forall₂.cons hhead ih

/-- The blocks of the local numbering are pointwise rearrangements of the
bucket filters of the closure. -/
theorem closureSegments_forall₂ (plex : Plex) (num : Nat → Int) (cl : List Nat)
    (dofs : List Nat) :
    List.Forall₂ List.Perm (closureSegments plex num cl dofs)
      ((closurePreds plex).map (fun pr => cl.filter pr)) := by
  unfold closureSegments closurePreds
  simp only [List.map_append, List.map_cons, List.map_map, List.cons_append]
  refine List.Forall₂.cons (vertexOrder_perm plex num cl) ?_
  refine forall₂_perm_append ?_ ?_
  · exact forall₂_perm_map _ _ _
      (fun d _ => depthSegment_perm plex cl dofs (vertexOrder plex num cl) d)
  · exact List.Forall₂.cons (List.Perm.refl _) List.Forall₂.nil

/-- C10: for a closure in which every point lies in exactly one of the bucket
strata (vertices, intermediate depths, cells) — true of any cell's transitive
closure in a well-formed topology of dimension at least 1 — the output of
`closure_numbering` is a rearrangement of the input closure of equal
length. -/
theorem closure_numbering_is_permutation (plex : Plex) (num : Nat → Int)
    (cl : List Nat) (dofs : List Nat) (hdim : 1 ≤ plex.dim)
    (hpart : ∀ x ∈ cl, (closurePreds plex).countP (fun pr => pr x) = 1) :
    (closure_numbering plex num cl dofs).Perm cl ∧
    (closure_numbering plex num cl dofs).length = cl.length := by
  have hflat : (closure_numbering plex num cl dofs).Perm
      (((closurePreds plex).map (fun pr => cl.filter pr)).flatten) :=
    List.Perm.flatten_congr (closureSegments_forall₂ plex num cl dofs)
  have hperm := hflat.trans (flatten_filter_partition_perm _ cl hpart)
  exact ⟨hperm, hperm.length_eq⟩

/-- Concrete instantiation of the C10 permutation theorem on the single
triangle's closure. -/
theorem closure_numbering_is_permutation_witness :
    (1 ≤ triPlex.dim ∧
      ∀ x ∈ ([0, 4, 5, 6, 1, 2, 3] : List Nat),
        (closurePreds triPlex).countP (fun pr => pr x) = 1) ∧
    ((closure_numbering triPlex triNumbering [0, 4, 5, 6, 1, 2, 3] [1, 0]).Perm
      [0, 4, 5, 6, 1, 2, 3] ∧
    (closure_numbering triPlex triNumbering [0, 4, 5, 6, 1, 2, 3] [1, 0]).length =
      ([0, 4, 5, 6, 1, 2, 3] : List Nat).length) :=
  ⟨⟨by decide, by decide⟩,
   closure_numbering_is_permutation triPlex triNumbering [0, 4, 5, 6, 1, 2, 3]
     [1, 0] (by decide) (by decide)⟩

/-! ### Invariants of the renumbering traversal

State is `(seen, perm)`.  The traversal maintains: `perm` has no duplicates,
`seen` and `perm` hold the same points, earlier states are prefixes of later
ones, and every point emitted during a pass carries that pass's label and lies
in the closure of one of the pass's cells. -/

/-- The seen set and the emitted permutation hold the same points, and the
permutation is duplicate-free. -/
def RenumberInv (st : List Nat × List Nat) : Prop :=
  st.2.Nodup ∧ ∀ q, q ∈ st.1 ↔ q ∈ st.2

theorem procPoint_inv (lab : Nat → Int) (st : List Nat × List Nat) (p : Nat)
    (h : RenumberInv st) : RenumberInv (procPoint lab st p) := by
  unfold procPoint
  split
  · exact h
  · rename_i hseen
    split
    · rename_i hlab
      constructor
      · rw [List.nodup_append]
        refine ⟨h.1, List.nodup_singleton p, ?_⟩
        intro q hq hq1
        rw [List.mem_singleton] at hq1
        subst hq1
        exact hseen ((h.2 q).mpr hq)
      · intro q
        rw [List.mem_cons, List.mem_append, List.mem_singleton, h.2 q, or_comm]
    · exact h

theorem procPoint_perm_extends (lab : Nat → Int) (st : List Nat × List Nat)
    (p : Nat) : st.2 <+: (procPoint lab st p).2 := by
  unfold procPoint
  split
  · exact List.prefix_rfl
  · split
    · exact List.prefix_append _ _
    · exact List.prefix_rfl

theorem procPoint_seen_mono (lab : Nat → Int) (st : List Nat × List Nat)
    (p q : Nat) (h : q ∈ st.1) : q ∈ (procPoint lab st p).1 := by
  unfold procPoint
  split
  · exact h
  · split
    · exact List.mem_cons_of_mem _ h
    · exact h

theorem procPoint_new_mem (lab : Nat → Int) (st : List Nat × List Nat)
    (p q : Nat) (h : q ∈ (procPoint lab st p).2) :
    q ∈ st.2 ∨ (q = p ∧ 0 ≤ lab p) := by
  unfold procPoint at h
  split at h
  · exact Or.inl h
  · split at h
    · rename_i hlab
      rcases List.mem_append.mp h with h2 | h2
      · exact Or.inl h2
      · exact Or.inr ⟨List.mem_singleton.mp h2, hlab⟩
    · exact Or.inl h

theorem procPoint_emits (lab : Nat → Int) (st : List Nat × List Nat) (p : Nat)
    (hlab : 0 ≤ lab p) : p ∈ (procPoint lab st p).1 := by
  unfold procPoint
  split
  · rename_i hseen
    exact hseen
  · exact List.mem_cons_self _ _

theorem foldl_procPoint_inv (lab : Nat → Int) (pts : List Nat) :
    ∀ st, RenumberInv st → RenumberInv (pts.foldl (procPoint lab) st) := by
  induction pts with
  | nil => intro st h; exact h
  | cons p pts ih => intro st h; exact ih _ (procPoint_inv lab st p h)

theorem foldl_procPoint_perm_extends (lab : Nat → Int) (pts : List Nat) :
    ∀ st, st.2 <+: (pts.foldl (procPoint lab) st).2 := by
  induction pts with
  | nil => intro st; exact List.prefix_rfl
  | cons p pts ih =>
    intro st
    exact (procPoint_perm_extends lab st p).trans (ih _)

theorem foldl_procPoint_seen_mono (lab : Nat → Int) (pts : List Nat) :
    ∀ st q, q ∈ st.1 → q ∈ (pts.foldl (procPoint lab) st).1 := by
  induction pts with
  | nil => intro st q h; exact h
  | cons p pts ih =>
    intro st q h
    exact ih _ q (procPoint_seen_mono lab st p q h)

theorem foldl_procPoint_new_mem (lab : Nat → Int) (pts : List Nat) :
    ∀ st q, q ∈ (pts.foldl (procPoint lab) st).2 →
      q ∈ st.2 ∨ (q ∈ pts ∧ 0 ≤ lab q) := by
  induction pts with
  | nil => intro st q h; exact Or.inl h
  | cons p pts ih =>
    intro st q h
    rcases ih _ q h with h2 | h2
    · rcases procPoint_new_mem lab st p q h2 with h3 | h3
      · exact Or.inl h3
      · exact Or.inr ⟨h3.1 ▸ List.mem_cons_self _ _, h3.1 ▸ h3.2⟩
    · exact Or.inr ⟨List.mem_cons_of_mem _ h2.1, h2.2⟩

theorem foldl_procPoint_covers (lab : Nat → Int) (pts : List Nat) :
    ∀ st p, p ∈ pts → 0 ≤ lab p → p ∈ (pts.foldl (procPoint lab) st).1 := by
  induction pts with
  | nil => intro st p h; cases h
  | cons p0 pts ih =>
    intro st p hp hlab
    rcases List.mem_cons.mp hp with rfl | hp2
    · exact foldl_procPoint_seen_mono lab pts _ p
        (procPoint_emits lab st p hlab)
    · exact ih _ p hp2 hlab

theorem renumberPass_inv (plex : Plex) (lab : Nat → Int) (cells : List Nat) :
    ∀ st, RenumberInv st → RenumberInv (renumberPass plex lab st cells) := by
  induction cells with
  | nil => intro st h; exact h
  | cons c cells ih =>
    intro st h
    exact ih _ (foldl_procPoint_inv lab (plex.closure c) st h)

theorem renumberPass_perm_extends (plex : Plex) (lab : Nat → Int) (cells : List Nat) :
    ∀ st, st.2 <+: (renumberPass plex lab st cells).2 := by
  induction cells with
  | nil => intro st; exact List.prefix_rfl
  | cons c cells ih =>
    intro st
    exact (foldl_procPoint_perm_extends lab (plex.closure c) st).trans (ih _)

theorem renumberPass_seen_mono (plex : Plex) (lab : Nat → Int)
    (cells : List Nat) :
    ∀ st q, q ∈ st.1 → q ∈ (renumberPass plex lab st cells).1 := by
  induction cells with
  | nil => intro st q h; exact h
  | cons c cells ih =>
    intro st q h
    exact ih _ q (foldl_procPoint_seen_mono lab (plex.closure c) st q h)

theorem renumberPass_new_mem (plex : Plex) (lab : Nat → Int)
    (cells : List Nat) :
    ∀ st q, q ∈ (renumberPass plex lab st cells).2 →
      q ∈ st.2 ∨ ((∃ c ∈ cells, q ∈ plex.closure c) ∧ 0 ≤ lab q) := by
  induction cells with
  | nil => intro st q h; exact Or.inl h
  | cons c cells ih =>
    intro st q h
    rcases ih _ q h with h2 | h2
    · rcases foldl_procPoint_new_mem lab (plex.closure c) st q h2 with h3 | h3
      · exact Or.inl h3
      · exact Or.inr ⟨⟨c, List.mem_cons_self _ _, h3.1⟩, h3.2⟩
    · exact Or.inr ⟨⟨h2.1.choose, List.mem_cons_of_mem _ h2.1.choose_spec.1,
        h2.1.choose_spec.2⟩, h2.2⟩

theorem renumberPass_covers (plex : Plex) (lab : Nat → Int) (cells : List Nat) :
    ∀ st c p, c ∈ cells → p ∈ plex.closure c → 0 ≤ lab p →
      p ∈ (renumberPass plex lab st cells).1 := by
  induction cells with
  | nil => intro st c p h; cases h
  | cons c0 cells ih =>
    intro st c p hc hp hlab
    rcases List.mem_cons.mp hc with rfl | hc2
    · exact renumberPass_seen_mono plex lab cells _ p
        (foldl_procPoint_covers lab (plex.closure c) st p hp hlab)
    · exact ih _ c p hc2 hp hlab

theorem renumberStage_inv (plex : Plex) (lab : Nat → Int)
    (st : List Nat × List Nat) (h : RenumberInv st) :
    RenumberInv (renumberStage plex lab st) := by
  unfold renumberStage
  split
  · exact renumberPass_inv plex lab _ st h
  · exact h

theorem renumberStage_perm_extends (plex : Plex) (lab : Nat → Int)
    (st : List Nat × List Nat) : st.2 <+: (renumberStage plex lab st).2 := by
  unfold renumberStage
  split
  · exact renumberPass_perm_extends plex lab _ st
  · exact List.prefix_rfl

theorem renumberStage_seen_mono (plex : Plex) (lab : Nat → Int)
    (st : List Nat × List Nat) (q : Nat) (h : q ∈ st.1) :
    q ∈ (renumberStage plex lab st).1 := by
  unfold renumberStage
  split
  · exact renumberPass_seen_mono plex lab _ st q h
  · exact h

theorem renumberStage_new_mem (plex : Plex) (lab : Nat → Int)
    (st : List Nat × List Nat) (q : Nat)
    (h : q ∈ (renumberStage plex lab st).2) :
    q ∈ st.2 ∨
      ((∃ c ∈ stratumIS plex lab (plex.dim : Int), q ∈ plex.closure c) ∧
        0 ≤ lab q) := by
  unfold renumberStage at h
  split at h
  · exact renumberPass_new_mem plex lab _ st q h
  · exact Or.inl h

theorem renumberStage_covers (plex : Plex) (lab : Nat → Int)
    (st : List Nat × List Nat) (c p : Nat)
    (hc : c ∈ stratumIS plex lab (plex.dim : Int)) (hp : p ∈ plex.closure c)
    (hlab : 0 ≤ lab p) : p ∈ (renumberStage plex lab st).1 := by
  unfold renumberStage
  rw [if_pos (by
    unfold stratumSize
    exact List.length_pos.mpr (List.ne_nil_of_mem hc))]
  exact renumberPass_covers plex lab _ st c p hc hp hlab

/-- Chart list membership is chart membership. -/
theorem mem_chartList (plex : Plex) (p : Nat) :
    p ∈ chartList plex ↔ InChart plex p := by
  unfold chartList InChart
  rw [List.mem_range'_1]
  omega

/-- The chart list is duplicate-free. -/
theorem chartList_nodup (plex : Plex) : (chartList plex).Nodup :=
  List.nodup_range' _ _

/-- The chart list is sorted. -/
theorem chartList_sorted (plex : Plex) :
    (chartList plex).Sorted (fun a b : Nat => a ≤ b) :=
  (List.pairwise_lt_range' _ _).imp (fun h => Nat.le_of_lt h)

/-- C3: for a classified topology in which every labeled chart point is
reachable through the closure of a cell of its own class stratum (and those
closures stay in the chart), `plex_renumbering` emits an array of length
`pEnd - pStart` which, sorted, is exactly `0 .. n-1`: a bijection between
output indices and chart points. -/
theorem plex_renumbering_bijection (plex : Plex) (L : EntityLabels)
    (h0 : plex.pStart = 0)
    (hclC : ∀ c ∈ stratumIS plex L.core (plex.dim : Int),
      ∀ p ∈ plex.closure c, p ∈ chartList plex)
    (hclN : ∀ c ∈ stratumIS plex L.nonCore (plex.dim : Int),
      ∀ p ∈ plex.closure c, p ∈ chartList plex)
    (hclH : ∀ c ∈ stratumIS plex L.execHalo (plex.dim : Int),
      ∀ p ∈ plex.closure c, p ∈ chartList plex)
    (hreach : ∀ p ∈ chartList plex,
      (0 ≤ L.core p ∧
        ∃ c ∈ stratumIS plex L.core (plex.dim : Int), p ∈ plex.closure c) ∨
      (0 ≤ L.nonCore p ∧
        ∃ c ∈ stratumIS plex L.nonCore (plex.dim : Int), p ∈ plex.closure c) ∨
      (0 ≤ L.execHalo p ∧
        ∃ c ∈ stratumIS plex L.execHalo (plex.dim : Int), p ∈ plex.closure c)) :
    (plex_renumbering plex L).length = plex.pEnd - plex.pStart ∧
    (plex_renumbering plex L).insertionSort (fun a b => a ≤ b) =
      List.range (plex.pEnd - plex.pStart) := by
  have hinv0 : RenumberInv (([] : List Nat), ([] : List Nat)) :=
    ⟨List.nodup_nil, by simp⟩
  have hinv1 := renumberStage_inv plex L.core _ hinv0
  have hinv2 := renumberStage_inv plex L.nonCore _ hinv1
  have hinv3 := renumberStage_inv plex L.execHalo _ hinv2
  have hsub : ∀ q ∈ plex_renumbering plex L, q ∈ chartList plex := by
    intro q hq
    rcases renumberStage_new_mem plex L.execHalo _ q hq with hq2 | hq2
    · rcases renumberStage_new_mem plex L.nonCore _ q hq2 with hq3 | hq3
      · rcases renumberStage_new_mem plex L.core _ q hq3 with hq4 | hq4
        · cases hq4
        · obtain ⟨⟨c, hc, hqc⟩, -⟩ := hq4
          exact hclC c hc q hqc
      · obtain ⟨⟨c, hc, hqc⟩, -⟩ := hq3
        exact hclN c hc q hqc
    · obtain ⟨⟨c, hc, hqc⟩, -⟩ := hq2
      exact hclH c hc q hqc
  have hcover : ∀ p ∈ chartList plex, p ∈ plex_renumbering plex L := by
    intro p hp
    have hseen : p ∈ (renumberStage plex L.execHalo
        (renumberStage plex L.nonCore
          (renumberStage plex L.core ([], [])))).1 := by
      rcases hreach p hp with ⟨hlab, c, hc, hpc⟩ | ⟨hlab, c, hc, hpc⟩ |
        ⟨hlab, c, hc, hpc⟩
      · exact renumberStage_seen_mono plex L.execHalo _ p
          (renumberStage_seen_mono plex L.nonCore _ p
            (renumberStage_covers plex L.core _ c p hc hpc hlab))
      · exact renumberStage_seen_mono plex L.execHalo _ p
          (renumberStage_covers plex L.nonCore _ c p hc hpc hlab)
      · exact renumberStage_covers plex L.execHalo _ c p hc hpc hlab
    exact (hinv3.2 p).mp hseen
  have hperm : (plex_renumbering plex L).Perm (chartList plex) := by
    refine (List.perm_ext_iff_of_nodup hinv3.1 (chartList_nodup plex)).mpr ?_
    intro a
    exact ⟨fun h => hsub a h, fun h => hcover a h⟩
  have hchart : chartList plex = List.range (plex.pEnd - plex.pStart) := by
    unfold chartList
    rw [h0, List.range_eq_range']
  constructor
  · rw [hperm.length_eq]
    unfold chartList
    exact List.length_range' _ _ _
  · rw [← hchart]
    exact List.eq_of_perm_of_sorted
      ((List.perm_insertionSort _ _).trans hperm)
      (List.sorted_insertionSort _ _) (chartList_sorted plex)

/-- Concrete instantiation of the C3 bijection theorem: the single triangle,
classified single-process (everything `core`). -/
theorem plex_renumbering_bijection_witness :
    (triPlex.pStart = 0 ∧
     (∀ c ∈ stratumIS triPlex (mark_entity_classes triPlex 1).core
        (triPlex.dim : Int), ∀ p ∈ triPlex.closure c, p ∈ chartList triPlex) ∧
     (∀ c ∈ stratumIS triPlex (mark_entity_classes triPlex 1).nonCore
        (triPlex.dim : Int), ∀ p ∈ triPlex.closure c, p ∈ chartList triPlex) ∧
     (∀ c ∈ stratumIS triPlex (mark_entity_classes triPlex 1).execHalo
        (triPlex.dim : Int), ∀ p ∈ triPlex.closure c, p ∈ chartList triPlex) ∧
     (∀ p ∈ chartList triPlex,
       (0 ≤ (mark_entity_classes triPlex 1).core p ∧
         ∃ c ∈ stratumIS triPlex (mark_entity_classes triPlex 1).core
           (triPlex.dim : Int), p ∈ triPlex.closure c) ∨
       (0 ≤ (mark_entity_classes triPlex 1).nonCore p ∧
         ∃ c ∈ stratumIS triPlex (mark_entity_classes triPlex 1).nonCore
           (triPlex.dim : Int), p ∈ triPlex.closure c) ∨
       (0 ≤ (mark_entity_classes triPlex 1).execHalo p ∧
         ∃ c ∈ stratumIS triPlex (mark_entity_classes triPlex 1).execHalo
           (triPlex.dim : Int), p ∈ triPlex.closure c))) ∧
    ((plex_renumbering triPlex (mark_entity_classes triPlex 1)).length =
      triPlex.pEnd - triPlex.pStart ∧
     (plex_renumbering triPlex
        (mark_entity_classes triPlex 1)).insertionSort (fun a b => a ≤ b) =
      List.range (triPlex.pEnd - triPlex.pStart)) :=
  ⟨⟨by decide, by decide, by decide, by decide, by decide⟩,
   plex_renumbering_bijection triPlex (mark_entity_classes triPlex 1)
     (by decide) (by decide) (by decide) (by decide) (by decide)⟩

/-- An index past a prefix of a duplicate-free list lands outside the
prefix. -/
theorem get_not_mem_prefix_of_le {l₁ l₂ : List Nat} (h : l₁ <+: l₂)
    (hn : l₂.Nodup) {i : Nat} (hge : l₁.length ≤ i) (hi : i < l₂.length) :
    l₂.get ⟨i, hi⟩ ∉ l₁ := by
  obtain ⟨t, rfl⟩ := h
  rw [List.nodup_append] at hn
  intro hmem
  have hlt : i - l₁.length < t.length := by
    rw [List.length_append] at hi
    omega
  have hElem : (l₁ ++ t).get ⟨i, hi⟩ = t.get ⟨i - l₁.length, hlt⟩ := by
    rw [List.get_eq_getElem, List.get_eq_getElem,
      List.getElem_append_right hge]
  rw [hElem] at hmem
  exact hn.2.2 hmem (List.get_mem _ _ _)

/-- An index inside a prefix of a list lands inside the prefix. -/
theorem get_mem_prefix_of_lt {l₁ l₂ : List Nat} (h : l₁ <+: l₂)
    {i : Nat} (hlt : i < l₁.length) (hi : i < l₂.length) :
    l₂.get ⟨i, hi⟩ ∈ l₁ := by
  rw [List.get_eq_getElem, ← h.getElem hlt]
  exact List.getElem_mem _

/-- C4: in the output of `plex_renumbering` over a classified topology with
pairwise-disjoint class labels, every position holding a `core` point precedes
every position holding a `non_core` point, and every position holding a
`non_core` point precedes every position holding an `exec_halo` point. -/
theorem plex_renumbering_class_ordering (plex : Plex) (L : EntityLabels)
    (hclC : ∀ c ∈ stratumIS plex L.core (plex.dim : Int),
      ∀ p ∈ plex.closure c, p ∈ chartList plex)
    (hclN : ∀ c ∈ stratumIS plex L.nonCore (plex.dim : Int),
      ∀ p ∈ plex.closure c, p ∈ chartList plex)
    (hclH : ∀ c ∈ stratumIS plex L.execHalo (plex.dim : Int),
      ∀ p ∈ plex.closure c, p ∈ chartList plex)
    (hdCN : ∀ p ∈ chartList plex, ¬(0 ≤ L.core p ∧ 0 ≤ L.nonCore p))
    (hdCH : ∀ p ∈ chartList plex, ¬(0 ≤ L.core p ∧ 0 ≤ L.execHalo p))
    (hdNH : ∀ p ∈ chartList plex, ¬(0 ≤ L.nonCore p ∧ 0 ≤ L.execHalo p)) :
    ∀ i j (hi : i < (plex_renumbering plex L).length)
      (hj : j < (plex_renumbering plex L).length),
      (0 ≤ L.core ((plex_renumbering plex L).get ⟨i, hi⟩) →
        0 ≤ L.nonCore ((plex_renumbering plex L).get ⟨j, hj⟩) → i < j) ∧
      (0 ≤ L.nonCore ((plex_renumbering plex L).get ⟨i, hi⟩) →
        0 ≤ L.execHalo ((plex_renumbering plex L).get ⟨j, hj⟩) → i < j) := by
  have hinv0 : RenumberInv (([] : List Nat), ([] : List Nat)) :=
    ⟨List.nodup_nil, by simp⟩
  have hinv1 := renumberStage_inv plex L.core _ hinv0
  have hinv2 := renumberStage_inv plex L.nonCore _ hinv1
  have hinv3 := renumberStage_inv plex L.execHalo _ hinv2
  set st1 := renumberStage plex L.core ([], []) with hst1
  set st2 := renumberStage plex L.nonCore st1 with hst2
  set st3 := renumberStage plex L.execHalo st2 with hst3
  have p12 : st1.2 <+: st2.2 := renumberStage_perm_extends plex L.nonCore st1
  have p23 : st2.2 <+: st3.2 := renumberStage_perm_extends plex L.execHalo st2
  have p13 : st1.2 <+: st3.2 := p12.trans p23
  have mem1 : ∀ q ∈ st1.2, 0 ≤ L.core q ∧ q ∈ chartList plex := by
    intro q hq
    rcases renumberStage_new_mem plex L.core _ q hq with h2 | h2
    · cases h2
    · obtain ⟨⟨c, hc, hqc⟩, hlab⟩ := h2
      exact ⟨hlab, hclC c hc q hqc⟩
  have mem2 : ∀ q ∈ st2.2, q ∉ st1.2 →
      0 ≤ L.nonCore q ∧ q ∈ chartList plex := by
    intro q hq hq1
    rcases renumberStage_new_mem plex L.nonCore _ q hq with h2 | h2
    · exact absurd h2 hq1
    · obtain ⟨⟨c, hc, hqc⟩, hlab⟩ := h2
      exact ⟨hlab, hclN c hc q hqc⟩
  have mem3 : ∀ q ∈ st3.2, q ∉ st2.2 →
      0 ≤ L.execHalo q ∧ q ∈ chartList plex := by
    intro q hq hq2
    rcases renumberStage_new_mem plex L.execHalo _ q hq with h2 | h2
    · exact absurd h2 hq2
    · obtain ⟨⟨c, hc, hqc⟩, hlab⟩ := h2
      exact ⟨hlab, hclH c hc q hqc⟩
  intro i j hi hj
  have hget : ∀ (k : Nat) (hk : k < (plex_renumbering plex L).length),
      (plex_renumbering plex L).get ⟨k, hk⟩ ∈ st3.2 := by
    intro k hk
    exact List.get_mem _ _ _
  constructor
  · intro hcore hnc
    have hilt : i < st1.2.length := by
      by_contra hile
      push_neg at hile
      have hnm1 := get_not_mem_prefix_of_le p13 hinv3.1 hile hi
      by_cases hm2 : (plex_renumbering plex L).get ⟨i, hi⟩ ∈ st2.2
      · have := mem2 _ hm2 hnm1
        exact hdCN _ this.2 ⟨hcore, this.1⟩
      · have := mem3 _ (hget i hi) hm2
        exact hdCH _ this.2 ⟨hcore, this.1⟩
    have hjge : st1.2.length ≤ j := by
      by_contra hjlt
      push_neg at hjlt
      have hm1 := get_mem_prefix_of_lt p13 hjlt hj
      have := mem1 _ hm1
      exact hdCN _ this.2 ⟨this.1, hnc⟩
    omega
  · intro hnc hhalo
    have hilt : i < st2.2.length := by
      by_contra hile
      push_neg at hile
      have hnm2 := get_not_mem_prefix_of_le p23 hinv3.1 hile hi
      have := mem3 _ (hget i hi) hnm2
      exact hdNH _ this.2 ⟨hnc, this.1⟩
    have hjge : st2.2.length ≤ j := by
      by_contra hjlt
      push_neg at hjlt
      have hm2 := get_mem_prefix_of_lt p23 hjlt hj
      by_cases hm1 : (plex_renumbering plex L).get ⟨j, hj⟩ ∈ st1.2
      · have := mem1 _ hm1
        exact hdCH _ this.2 ⟨this.1, hhalo⟩
      · have := mem2 _ hm2 hm1
        exact hdNH _ this.2 ⟨this.1, hhalo⟩
    omega

/-- A three-point topology whose "cells" are the points themselves (dimension
0), used to exercise all three entity classes. -/
def orderPlex : Plex where
  pStart := 0
  pEnd := 3
  dim := 0
  depthLabel := fun _ => 0
  depthStratum := fun d => if d = 0 then (0, 3) else (0, 0)
  heightStratum := fun h => if h = 0 then (0, 3) else (0, 0)
  closure := fun p => if p < 3 then [p] else []
  star := fun p => if p < 3 then [p] else []
  support := fun _ => []
  sfLeaves := [2]

/-- A classification of `orderPlex` with one point in each class. -/
def orderLabels : EntityLabels where
  core := fun p => if p = 0 then 0 else -1
  nonCore := fun p => if p = 1 then 0 else -1
  execHalo := fun p => if p = 2 then 0 else -1

/-- Concrete instantiation of the C4 class-ordering theorem on `orderPlex`,
whose permutation holds a `core`, a `non_core` and an `exec_halo` point. -/
theorem plex_renumbering_class_ordering_witness :
    ((∀ c ∈ stratumIS orderPlex orderLabels.core (orderPlex.dim : Int),
        ∀ p ∈ orderPlex.closure c, p ∈ chartList orderPlex) ∧
     (∀ c ∈ stratumIS orderPlex orderLabels.nonCore (orderPlex.dim : Int),
        ∀ p ∈ orderPlex.closure c, p ∈ chartList orderPlex) ∧
     (∀ c ∈ stratumIS orderPlex orderLabels.execHalo (orderPlex.dim : Int),
        ∀ p ∈ orderPlex.closure c, p ∈ chartList orderPlex) ∧
     (∀ p ∈ chartList orderPlex,
        ¬(0 ≤ orderLabels.core p ∧ 0 ≤ orderLabels.nonCore p)) ∧
     (∀ p ∈ chartList orderPlex,
        ¬(0 ≤ orderLabels.core p ∧ 0 ≤ orderLabels.execHalo p)) ∧
     (∀ p ∈ chartList orderPlex,
        ¬(0 ≤ orderLabels.nonCore p ∧ 0 ≤ orderLabels.execHalo p))) ∧
    (∀ i j (hi : i < (plex_renumbering orderPlex orderLabels).length)
       (hj : j < (plex_renumbering orderPlex orderLabels).length),
       (0 ≤ orderLabels.core
          ((plex_renumbering orderPlex orderLabels).get ⟨i, hi⟩) →
        0 ≤ orderLabels.nonCore
          ((plex_renumbering orderPlex orderLabels).get ⟨j, hj⟩) → i < j) ∧
       (0 ≤ orderLabels.nonCore
          ((plex_renumbering orderPlex orderLabels).get ⟨i, hi⟩) →
        0 ≤ orderLabels.execHalo
          ((plex_renumbering orderPlex orderLabels).get ⟨j, hj⟩) → i < j)) :=
  ⟨⟨by decide, by decide, by decide, by decide, by decide, by decide⟩,
   plex_renumbering_class_ordering orderPlex orderLabels
     (by decide) (by decide) (by decide) (by decide) (by decide) (by decide)⟩
